import Mathlib

set_option maxRecDepth 8192

/-!
Shallow embedding of the portfolio template-editor server
(`TemplateEdit/server-editor.js` and its sibling variant).

The embedding models JS strings as Lean `String`/`List Char`; the ASCII
fragments of `toLowerCase`, `toUpperCase`, `trim` are modelled with
`Char.toLower`/`Char.toUpper` (the slugs and patterns the server works with
are ASCII).  Filesystem effects are made explicit: the persisted
`projects.json` file is an `IndexFile`, the projects directory is a list of
file names together with a read function, and each endpoint returns its
response alongside the state it writes back.
-/

namespace PortfolioEditor

/-- JS `String.prototype.toLowerCase` restricted to ASCII letters. -/
def jsLower (s : String) : String := ⟨s.data.map Char.toLower⟩

/-- Whitespace as matched by JS `\s` / `trim` (ASCII whitespace plus NBSP). -/
def isJsWs (c : Char) : Bool :=
  c == ' ' || c == '\t' || c == '\n' || c == '\r' ||
  c.toNat == 11 || c.toNat == 12 || c.toNat == 160

/-- JS `String.prototype.trim` on a character list. -/
def jsTrim (l : List Char) : List Char :=
  ((l.dropWhile isJsWs).reverse.dropWhile isJsWs).reverse

/-- Case-insensitive literal matching: consume `pat` (case-insensitively)
from the front of the input, returning the rest on success. -/
def stripCI : List Char → List Char → Option (List Char)
  | [], l => some l
  | _ :: _, [] => none
  | p :: ps, c :: cs =>
    if Char.toLower c == Char.toLower p then stripCI ps cs else none

/-- Leftmost-match search: try `f` at every suffix, earliest success wins.
This is how a JS regex `String.prototype.match` scans the subject. -/
def scanFirst (f : List Char → Option (List Char)) : List Char → Option (List Char)
  | [] => f []
  | l@(_ :: rest) =>
    match f l with
    | some r => some r
    | none => scanFirst f rest

/-- One attempt of `/<title[^>]*>([^<]+)<\/title>/i` at a fixed position,
returning the captured group. -/
def matchTitleAt (l : List Char) : Option (List Char) :=
  match stripCI "<title".data l with
  | none => none
  | some r1 =>
    match r1.dropWhile (fun c => c != '>') with
    | '>' :: r2 =>
      let text := r2.takeWhile (fun c => c != '<')
      if text.isEmpty then none
      else
        match stripCI "</title>".data (r2.dropWhile (fun c => c != '<')) with
        | some _ => some text
        | none => none
    | _ => none

/-- One attempt of `/<h1[^>]*>([^<]+)<\/h1>/i` at a fixed position. -/
def matchH1At (l : List Char) : Option (List Char) :=
  match stripCI "<h1".data l with
  | none => none
  | some r1 =>
    match r1.dropWhile (fun c => c != '>') with
    | '>' :: r2 =>
      let text := r2.takeWhile (fun c => c != '<')
      if text.isEmpty then none
      else
        match stripCI "</h1>".data (r2.dropWhile (fun c => c != '<')) with
        | some _ => some text
        | none => none
    | _ => none

/-- Match `src=["']([^"']+)["']` at a fixed position. -/
def srcMatch (l : List Char) : Option (List Char) :=
  match stripCI "src=".data l with
  | none => none
  | some r =>
    match r with
    | q :: rest =>
      if q == '"' || q == '\'' then
        let content := rest.takeWhile (fun c => c != '"' && c != '\'')
        if content.isEmpty then none
        else
          match rest.dropWhile (fun c => c != '"' && c != '\'') with
          | _ :: _ => some content
          | [] => none
      else none
    | [] => none

/-- The `[^>]+src=...` part of the img regex: consume at least one
non-`'>'` filler character, greedily preferring a longer filler (the
backtracking order of the greedy `[^>]+`), then match `src=["']...["']`. -/
def imgAfter : List Char → Option (List Char)
  | [] => none
  | c :: rest =>
    if c == '>' then none
    else
      match imgAfter rest with
      | some r => some r
      | none => srcMatch rest

/-- One attempt of `/<img[^>]+src=["']([^"']+)["']/i` at a fixed position. -/
def matchImgAt (l : List Char) : Option (List Char) :=
  match stripCI "<img".data l with
  | none => none
  | some r1 => imgAfter r1

/-- First match of the title regex over the whole string. -/
def findTitleTag (html : String) : Option (List Char) :=
  scanFirst matchTitleAt html.data

/-- First match of the h1 regex over the whole string. -/
def findH1Tag (html : String) : Option (List Char) :=
  scanFirst matchH1At html.data

/-- First match of the img-src regex over the whole string. -/
def findImgSrc (html : String) : Option (List Char) :=
  scanFirst matchImgAt html.data

/-- `.replace(/\s*\|\s*Sharva Paralkar\s*$/i, '')`: strip the trailing
"| Sharva Paralkar" separator (with surrounding whitespace) when present,
otherwise return the input unchanged. -/
def stripOwnerSfx (l : List Char) : List Char :=
  let r1 := l.reverse.dropWhile isJsWs
  match stripCI "Sharva Paralkar".data.reverse r1 with
  | none => l
  | some r2 =>
    match r2.dropWhile isJsWs with
    | '|' :: r4 => (r4.dropWhile isJsWs).reverse
    | _ => l

/-- Result of `parseMetaFromHtml` (sibling variant, lines 93-104). -/
structure ParsedMeta where
  title : String
  image : String

/-- `parseMetaFromHtml(html)`: best-effort regex scrape of title and image. -/
def parseMetaFromHtml (html : String) : ParsedMeta :=
  let t1 : List Char :=
    match findTitleTag html with
    | some cap => jsTrim (stripOwnerSfx cap)
    | none => []
  let t2 : List Char :=
    if t1.isEmpty then
      match findH1Tag html with
      | some cap => jsTrim cap
      | none => t1
    else t1
  let img : List Char :=
    match findImgSrc html with
    | some cap => jsTrim cap
    | none => []
  ⟨⟨t2⟩, ⟨img⟩⟩

/-- `\w` of JS regexes: `[a-zA-Z0-9_]`. -/
def isWordChar (c : Char) : Bool :=
  let n := c.toNat
  (48 ≤ n && n ≤ 57) || (65 ≤ n && n ≤ 90) || (97 ≤ n && n ≤ 122) || n == 95

/-- `.replace(/\b\w/g, (c) => c.toUpperCase())`: uppercase every word
character that sits at a word boundary.  The boolean tracks whether the
previous character was a word character. -/
def capWordsAux : Bool → List Char → List Char
  | _, [] => []
  | prevWord, c :: rest =>
    let c' := if !prevWord && isWordChar c then Char.toUpper c else c
    c' :: capWordsAux (isWordChar c) rest

/-- Replace every hyphen with a space, then uppercase every word
character at a word boundary: a human-readable form of the slug. -/
def humanizeSlug (slug : String) : String :=
  ⟨capWordsAux false (slug.data.map (fun c => if c == '-' then ' ' else c))⟩

/-- A JSON-ish value, as handled by the `meta` normalization. -/
inductive JVal where
  | vstr (s : String)
  | vnum (n : Int)
  | vbool (b : Bool)
  | vnull
  | varr (elems : List JVal)

/-- JS truthiness of a `JVal` (note: an array is always truthy). -/
def JVal.truthy : JVal → Bool
  | .vstr s => s != ""
  | .vnum n => n != 0
  | .vbool b => b
  | .vnull => false
  | .varr _ => true

/-- `Array.isArray(v) ? v : (v ? [v] : [])`, with `none` for an absent
field. -/
def scalarOrList : Option JVal → List JVal
  | some (.varr l) => l
  | some x => if x.truthy then [x] else []
  | none => []

/-- JS `s || d` for strings (`""` is falsy). -/
def jsOrStr (s d : String) : String := if s = "" then d else s

/-- JS `o || d` where the field may be absent (`undefined`). -/
def jsOrOpt (o : Option String) (d : String) : String :=
  match o with
  | some s => jsOrStr s d
  | none => d

/-- One record of `projects.json`. -/
structure ProjectRecord where
  slug : String
  title : String
  category : String
  dataCategory : List JVal
  description : String
  tags : List JVal
  image : String

/-- The case-insensitive key of a record: `(p.slug || '').toLowerCase()`. -/
def recKey (p : ProjectRecord) : String := jsLower p.slug

/-- The `meta` object of a `/api/save` request body. -/
structure Meta where
  title : Option String
  category : Option String
  dataCategory : Option JVal
  description : Option String
  tags : Option JVal
  image : Option String

/-- The `entry` object built by `/api/save` (lines 72-80). -/
def mkEntry (slug : String) (meta : Meta) : ProjectRecord :=
  { slug := slug
    title := jsOrOpt meta.title slug
    category := jsOrOpt meta.category ""
    dataCategory := scalarOrList meta.dataCategory
    description := jsOrOpt meta.description ""
    tags := scalarOrList meta.tags
    image := jsOrOpt meta.image "" }

/-- Membership in the character class `[a-z0-9-]` with the `i` flag. -/
def isSlugChar (c : Char) : Bool :=
  let n := c.toNat
  (97 ≤ n && n ≤ 122) || (65 ≤ n && n ≤ 90) || (48 ≤ n && n ≤ 57) || n == 45

/-- One step of `.replace(/[^a-z0-9-]/gi, '-')`. -/
def sanitizeChar (c : Char) : Char := if isSlugChar c then c else '-'

/-- `(req.body.slug || '').replace(/[^a-z0-9-]/gi, '-')`. -/
def sanitizeSlug (s : String) : String := ⟨s.data.map sanitizeChar⟩

/-- The predicate of the `findIndex` lookup in `/api/save` (line 82). -/
def slugMatches (key : String) (p : ProjectRecord) : Bool := recKey p == key

/-- Lines 82-84: find the first record whose slug equals `key`
case-insensitively; replace it in place, or append the entry. -/
def upsertList (key : String) (entry : ProjectRecord) (ps : List ProjectRecord) :
    List ProjectRecord :=
  match ps.findIdx? (slugMatches key) with
  | some i => ps.set i entry
  | none => ps ++ [entry]

/-- Recursive characterization of `upsertList`, used by the proofs. -/
def upsertListRec (key : String) (entry : ProjectRecord) :
    List ProjectRecord → List ProjectRecord
  | [] => [entry]
  | p :: rest =>
    if slugMatches key p then entry :: rest else p :: upsertListRec key entry rest

/-- State of the persisted `projects.json` file, as distinguished by
lines 62-70: absent file, unparseable JSON, parseable JSON that is not an
array, or a JSON array of records. -/
inductive IndexFile where
  | missing
  | invalidJson
  | jsonNonArray
  | jsonArray (records : List ProjectRecord)

/-- Lines 62-70: load the index, treating a missing file, a parse failure
and a non-array value all as the empty list. -/
def loadProjects : IndexFile → List ProjectRecord
  | .jsonArray l => l
  | _ => []

/-- A server response, as far as the modelled endpoints produce them. -/
inductive Response where
  | badRequest (error : String)
  | okUpload (url : String)
  | okSave (path : String)
  | okSync (projects : List ProjectRecord) (added : List String)
      (removed : Nat) (message : String)
  | notFound

/-- Everything `/api/save` does: the HTTP response, the rewritten index
file, and the HTML file write (name and content), if any. -/
structure SaveOutcome where
  response : Response
  disk : IndexFile
  wroteHtml : Option (String × String)

/-- `/api/save` of `TemplateEdit/server-editor.js` (lines 53-89): the
variant that stores projects under the portfolio root and answers with
`projects/<slug>.html`. -/
def saveV1 (raw : String) (html : Option String) (meta : Meta) (disk : IndexFile) :
    SaveOutcome :=
  let slug := sanitizeSlug raw
  if slug = "" then ⟨.badRequest "Missing slug", disk, none⟩
  else
    let projects := loadProjects disk
    let entry := mkEntry slug meta
    let updated := upsertList (jsLower slug) entry projects
    ⟨.okSave ("projects/" ++ slug ++ ".html"), .jsonArray updated,
      some (slug ++ ".html", jsOrOpt html "")⟩

/-- `/api/save` of the sibling variant (lines 54-90): identical logic, but
projects live under `TemplateEdit/projects/` and the returned path says so. -/
def saveV2 (raw : String) (html : Option String) (meta : Meta) (disk : IndexFile) :
    SaveOutcome :=
  let slug := sanitizeSlug raw
  if slug = "" then ⟨.badRequest "Missing slug", disk, none⟩
  else
    let projects := loadProjects disk
    let entry := mkEntry slug meta
    let updated := upsertList (jsLower slug) entry projects
    ⟨.okSave ("TemplateEdit/projects/" ++ slug ++ ".html"), .jsonArray updated,
      some (slug ++ ".html", jsOrOpt html "")⟩

/-- Does the reversed pattern occur at the head of the reversed input?
Auxiliary for the `endsWith` model. -/
def revStartsWith : List Char → List Char → Bool
  | [], _ => true
  | _ :: _, [] => false
  | p :: ps, c :: cs => c == p && revStartsWith ps cs

/-- JS `s.endsWith(sfx)` (exact, case-sensitive comparison). -/
def jsEndsWith (s sfx : String) : Bool :=
  revStartsWith sfx.data.reverse s.data.reverse

/-- `path.basename(file, '.html')` for a plain directory entry: drop the
`.html` suffix (Node keeps it when the name *is* the extension). -/
def stripHtmlSfx (f : String) : String :=
  if jsEndsWith f ".html" && decide (5 < f.data.length) then
    ⟨(f.data.reverse.drop 5).reverse⟩
  else f

/-- Result of `/api/sync-projects`. -/
structure SyncResult where
  records : List ProjectRecord
  added : List String
  removedCount : Nat

/-- The entry built for a file that has no index record (lines 134-142). -/
def syncEntry (slug : String) (html : String) : ProjectRecord :=
  let parsed := parseMetaFromHtml html
  { slug := slug
    title := jsOrStr parsed.title (humanizeSlug slug)
    category := ""
    dataCategory := []
    description := ""
    tags := []
    image := jsOrStr parsed.image "" }

/-- `files.filter((f) => f.endsWith('.html'))` (line 117). -/
def htmlFilter (files : List String) : List String :=
  files.filter (fun f => jsEndsWith f ".html")

/-- The case-insensitive key a file contributes:
`path.basename(f, '.html').toLowerCase()`. -/
def fileKey (f : String) : String := jsLower (stripHtmlSfx f)

/-- The `for (const file of files)` loop of `/api/sync-projects`
(lines 121-147): `ps` is the records list, `keys` the key set of the
`bySlug` map, `added` the accumulator of newly added slugs. -/
def syncLoop (read : String → String) :
    List String → List ProjectRecord → List String → List String →
    List ProjectRecord × List String × List String
  | [], ps, keys, added => (ps, keys, added)
  | f :: rest, ps, keys, added =>
    if keys.contains (fileKey f) then
      syncLoop read rest ps keys added
    else
      syncLoop read rest (ps ++ [syncEntry (stripHtmlSfx f) (read f)])
        (keys ++ [fileKey f]) (added ++ [stripHtmlSfx f])

/-- `/api/sync-projects` (sibling variant, lines 106-162), minus the
load/persist steps: list the `.html` files, add an entry for every file
without a record, then drop every record without a file. -/
def reconcileIndex (files : List String) (read : String → String)
    (projects : List ProjectRecord) : SyncResult :=
  let out := syncLoop read (htmlFilter files) projects (projects.map recKey) []
  let kept := out.1.filter (fun p => ((htmlFilter files).map fileKey).contains (recKey p))
  ⟨kept, out.2.2, out.1.length - kept.length⟩

/-- The summary string of the `/api/sync-projects` response. -/
def syncMessage (r : SyncResult) : String :=
  "Synced: " ++ toString r.records.length ++ " project(s). Added: " ++
  toString r.added.length ++ "; removed from list: " ++
  toString r.removedCount ++ "."

/-- Membership in `[a-zA-Z0-9._-]` (upload filename sanitization). -/
def isFileChar (c : Char) : Bool :=
  isSlugChar c || c.toNat == 46 || c.toNat == 95

/-- `.replace(/[^a-zA-Z0-9._-]/g, '_')`. -/
def sanitizeFileName (s : String) : String :=
  ⟨s.data.map (fun c => if isFileChar c then c else '_')⟩

/-- `path.basename` for ordinary names: the part after the last `/`. -/
def jsBasename (s : String) : String :=
  ⟨(s.data.reverse.takeWhile (fun c => c != '/')).reverse⟩

/-- `/api/upload` (identical in both variants, lines 45-51): `none` models
a request without a file; `some orig` carries the client filename. -/
def uploadResponse (orig : Option String) : Response :=
  match orig with
  | none => .badRequest "No image file"
  | some name =>
    .okUpload ("public/images/" ++ sanitizeFileName (jsBasename (jsOrStr name "image")))

/-- The server-side state an endpoint can observe: the persisted index
file, the directory listing of the projects directory, and the content of
each file in it (read failures folded into `""` per lines 128-132). -/
structure ServerState where
  disk : IndexFile
  files : List String
  read : String → String

/-- A request to one of the modelled API routes. -/
inductive Request where
  | upload (orig : Option String)
  | save (slug : Option String) (html : Option String) (meta : Meta)
  | sync

/-- The first variant (`TemplateEdit/server-editor.js`): it has no
`/api/sync-projects` route, so a sync request falls through to the
framework's 404. -/
def handleV1 : Request → ServerState → Response
  | .upload orig, _ => uploadResponse orig
  | .save slug html meta, st => (saveV1 (jsOrOpt slug "") html meta st.disk).response
  | .sync, _ => .notFound

/-- The persisted index file after the first variant handles a request. -/
def diskAfterV1 : Request → ServerState → IndexFile
  | .upload _, st => st.disk
  | .save slug html meta, st => (saveV1 (jsOrOpt slug "") html meta st.disk).disk
  | .sync, st => st.disk

/-- The sibling variant: same upload and save logic (different stored
path), plus `/api/sync-projects`. -/
def handleV2 : Request → ServerState → Response
  | .upload orig, _ => uploadResponse orig
  | .save slug html meta, st => (saveV2 (jsOrOpt slug "") html meta st.disk).response
  | .sync, st =>
    let r := reconcileIndex st.files st.read (loadProjects st.disk)
    .okSync r.records r.added r.removedCount (syncMessage r)

/-- The persisted index file after the sibling variant handles a request. -/
def diskAfterV2 : Request → ServerState → IndexFile
  | .upload _, st => st.disk
  | .save slug html meta, st => (saveV2 (jsOrOpt slug "") html meta st.disk).disk
  | .sync, st =>
    .jsonArray (reconcileIndex st.files st.read (loadProjects st.disk)).records

/-- Number of records whose slug equals `key` case-insensitively. -/
def countKey (key : String) (ps : List ProjectRecord) : Nat :=
  ps.countP (slugMatches key)

/-- Discriminator used by the variant-equivalence counterexample. -/
def isNotFound : Response → Bool
  | .notFound => true
  | _ => false

/-- Title extraction as claim C4 states it: the `h1` fallback applies only
when no `<title>` matched, and the human-readable slug only when neither
regex matched. -/
def claimedTitleC4 (html : String) (slug : String) : String :=
  match findTitleTag html with
  | some cap => ⟨jsTrim (stripOwnerSfx cap)⟩
  | none =>
    match findH1Tag html with
    | some cap => ⟨jsTrim cap⟩
    | none => humanizeSlug slug

/-- Title extraction as the code actually behaves (amended C4): each
fallback fires whenever the previous stage produced the empty string. -/
def amendedTitleC4 (html : String) (slug : String) : String :=
  let t : String :=
    match findTitleTag html with
    | some cap => ⟨jsTrim (stripOwnerSfx cap)⟩
    | none => ""
  if t ≠ "" then t
  else
    let h : String :=
      match findH1Tag html with
      | some cap => ⟨jsTrim cap⟩
      | none => ""
    if h ≠ "" then h else humanizeSlug slug

/-- Image extraction as claim C4 states it. -/
def claimedImageC4 (html : String) : String :=
  match findImgSrc html with
  | some cap => ⟨jsTrim cap⟩
  | none => ""

/-- A `meta` object with every field absent. -/
def metaNone : Meta := ⟨none, none, none, none, none, none⟩

/-- A concrete record used by the duplicate-slug counterexamples. -/
def dupRecord : ProjectRecord := ⟨"a", "a", "", [], "", [], ""⟩

/-- The HTML input of the C4 counterexample: the title tag matches but its
text collapses to the empty string once the owner suffix is stripped. -/
def htmlCex : String := "<title> | Sharva Paralkar</title><h1>Hello</h1>"

/-- The concrete server state of the C9 counterexample: an empty index and
one project file. -/
def stCex : ServerState := ⟨.jsonArray [], ["a.html"], fun _ => ""⟩

/-! ### Helper lemmas -/

theorem string_mk_eq_empty_iff (l : List Char) : String.mk l = "" ↔ l = [] := by
  constructor
  · intro h
    have h2 := congrArg String.data h
    simpa using h2
  · intro h
    subst h
    rfl

theorem char_toNat_ofNat_of_lt {n : Nat} (h : n < 55296) : (Char.ofNat n).toNat = n := by
  have hv : n.isValidChar := Or.inl h
  rw [Char.ofNat, dif_pos hv]
  rfl

theorem char_toLower_eq (c : Char) :
    Char.toLower c =
      if 65 ≤ c.toNat ∧ c.toNat ≤ 90 then Char.ofNat (c.toNat + 32) else c := rfl

theorem isSlugChar_toLower (c : Char) (h : isSlugChar c = true) :
    isSlugChar (Char.toLower c) = true := by
  simp only [isSlugChar, Bool.or_eq_true, Bool.and_eq_true, decide_eq_true_eq,
    beq_iff_eq] at h
  rw [char_toLower_eq]
  by_cases hr : 65 ≤ c.toNat ∧ c.toNat ≤ 90
  · rw [if_pos hr]
    simp only [isSlugChar, Bool.or_eq_true, Bool.and_eq_true, decide_eq_true_eq,
      beq_iff_eq]
    rw [char_toNat_ofNat_of_lt (by omega)]
    omega
  · rw [if_neg hr]
    simp only [isSlugChar, Bool.or_eq_true, Bool.and_eq_true, decide_eq_true_eq,
      beq_iff_eq]
    omega

theorem toLower_sanitizeChar (c : Char) :
    Char.toLower (sanitizeChar c) = sanitizeChar (Char.toLower c) := by
  by_cases hs : isSlugChar c = true
  · have l1 : sanitizeChar c = c := by
      unfold sanitizeChar
      rw [if_pos hs]
    have l2 : sanitizeChar (Char.toLower c) = Char.toLower c := by
      unfold sanitizeChar
      rw [if_pos (isSlugChar_toLower c hs)]
    rw [l1, l2]
  · have hr : ¬ (65 ≤ c.toNat ∧ c.toNat ≤ 90) := by
      intro hx
      apply hs
      simp only [isSlugChar, Bool.or_eq_true, Bool.and_eq_true, decide_eq_true_eq,
        beq_iff_eq]
      omega
    have l1 : sanitizeChar c = '-' := by
      unfold sanitizeChar
      rw [if_neg hs]
    have l2 : Char.toLower c = c := by
      rw [char_toLower_eq, if_neg hr]
    rw [l1, l2, l1]
    decide

theorem sanitizeChar_idem (c : Char) : sanitizeChar (sanitizeChar c) = sanitizeChar c := by
  by_cases hs : isSlugChar c = true
  · have l1 : sanitizeChar c = c := by
      unfold sanitizeChar
      rw [if_pos hs]
    rw [l1]
    exact l1
  · have l1 : sanitizeChar c = '-' := by
      unfold sanitizeChar
      rw [if_neg hs]
    rw [l1]
    decide

theorem sanitizeSlug_idem (s : String) : sanitizeSlug (sanitizeSlug s) = sanitizeSlug s := by
  unfold sanitizeSlug
  refine congrArg String.mk ?_
  show (s.data.map sanitizeChar).map sanitizeChar = s.data.map sanitizeChar
  induction s.data with
  | nil => rfl
  | cons c l ih => simp [sanitizeChar_idem, ih]

theorem jsLower_sanitizeSlug (s : String) :
    jsLower (sanitizeSlug s) = sanitizeSlug (jsLower s) := by
  unfold jsLower sanitizeSlug
  refine congrArg String.mk ?_
  show (s.data.map sanitizeChar).map Char.toLower = (s.data.map Char.toLower).map sanitizeChar
  induction s.data with
  | nil => rfl
  | cons c l ih => simp [toLower_sanitizeChar, ih]

theorem sanitizeSlug_eq_empty_iff (s : String) : sanitizeSlug s = "" ↔ s.data = [] := by
  unfold sanitizeSlug
  rw [string_mk_eq_empty_iff]
  exact List.map_eq_nil_iff

theorem jsLower_eq_empty_iff (s : String) : jsLower s = "" ↔ s.data = [] := by
  unfold jsLower
  rw [string_mk_eq_empty_iff]
  exact List.map_eq_nil_iff

theorem upsertListRec_nil (key : String) (e : ProjectRecord) :
    upsertListRec key e [] = [e] := rfl

theorem upsertListRec_cons_pos (key : String) (e p : ProjectRecord)
    (rest : List ProjectRecord) (h : slugMatches key p = true) :
    upsertListRec key e (p :: rest) = e :: rest := by
  unfold upsertListRec
  rw [if_pos h]

theorem upsertListRec_cons_neg (key : String) (e p : ProjectRecord)
    (rest : List ProjectRecord) (h : ¬ slugMatches key p = true) :
    upsertListRec key e (p :: rest) = p :: upsertListRec key e rest := by
  conv_lhs => unfold upsertListRec
  rw [if_neg h]

theorem upsertList_eq_rec (key : String) (e : ProjectRecord) (ps : List ProjectRecord) :
    upsertList key e ps = upsertListRec key e ps := by
  induction ps with
  | nil => rfl
  | cons p rest ih =>
    by_cases h : slugMatches key p = true
    · rw [upsertListRec_cons_pos key e p rest h]
      unfold upsertList
      rw [List.findIdx?_cons, if_pos h]
      rfl
    · rw [upsertListRec_cons_neg key e p rest h]
      unfold upsertList
      rw [List.findIdx?_cons, if_neg h, List.findIdx?_succ]
      unfold upsertList at ih
      cases hr : rest.findIdx? (slugMatches key) with
      | none =>
        rw [hr] at ih
        have ih2 : rest ++ [e] = upsertListRec key e rest := ih
        show (p :: rest) ++ [e] = p :: upsertListRec key e rest
        rw [List.cons_append, ih2]
      | some i =>
        rw [hr] at ih
        have ih2 : rest.set i e = upsertListRec key e rest := ih
        show (p :: rest).set (i + 1) e = p :: upsertListRec key e rest
        rw [List.set_cons_succ, ih2]

theorem self_mem_upsertListRec (key : String) (e : ProjectRecord) (ps : List ProjectRecord) :
    e ∈ upsertListRec key e ps := by
  induction ps with
  | nil => exact List.mem_singleton.mpr rfl
  | cons p rest ih =>
    by_cases h : slugMatches key p = true
    · rw [upsertListRec_cons_pos key e p rest h]
      exact List.mem_cons_self e rest
    · rw [upsertListRec_cons_neg key e p rest h]
      exact List.mem_cons_of_mem p ih

theorem countKey_cons (key : String) (p : ProjectRecord) (ps : List ProjectRecord) :
    countKey key (p :: ps) = countKey key ps + if slugMatches key p then 1 else 0 :=
  List.countP_cons _ _ _

theorem countKey_upsertListRec (key : String) (e : ProjectRecord) (ps : List ProjectRecord)
    (he : slugMatches key e = true) (hc : countKey key ps ≤ 1) :
    countKey key (upsertListRec key e ps) = 1 := by
  induction ps with
  | nil =>
    rw [upsertListRec_nil, countKey_cons, if_pos he]
    rfl
  | cons p rest ih =>
    rw [countKey_cons] at hc
    by_cases h : slugMatches key p = true
    · rw [if_pos h] at hc
      rw [upsertListRec_cons_pos key e p rest h, countKey_cons, if_pos he]
      have h0 : countKey key rest = 0 := by omega
      rw [h0]
    · rw [if_neg h] at hc
      rw [upsertListRec_cons_neg key e p rest h, countKey_cons, if_neg h]
      rw [ih (by omega)]

theorem upsertListRec_twice (key : String) (e1 e2 : ProjectRecord)
    (he1 : slugMatches key e1 = true) (ps : List ProjectRecord)
    (hc : countKey key ps ≤ 1) :
    ∃ i, (upsertListRec key e1 ps)[i]? = some e1 ∧
      upsertListRec key e2 (upsertListRec key e1 ps) = (upsertListRec key e1 ps).set i e2 := by
  induction ps with
  | nil =>
    refine ⟨0, ?_, ?_⟩
    · rw [upsertListRec_nil]
      simp
    · rw [upsertListRec_nil, upsertListRec_cons_pos key e2 e1 [] he1]
      rfl
  | cons p rest ih =>
    rw [countKey_cons] at hc
    by_cases h : slugMatches key p = true
    · refine ⟨0, ?_, ?_⟩
      · rw [upsertListRec_cons_pos key e1 p rest h]
        simp
      · rw [upsertListRec_cons_pos key e1 p rest h,
          upsertListRec_cons_pos key e2 e1 rest he1]
        rfl
    · rw [if_neg h] at hc
      obtain ⟨i, hi1, hi2⟩ := ih (by omega)
      refine ⟨i + 1, ?_, ?_⟩
      · rw [upsertListRec_cons_neg key e1 p rest h]
        simpa using hi1
      · rw [upsertListRec_cons_neg key e1 p rest h,
          upsertListRec_cons_neg key e2 p (upsertListRec key e1 rest) h, hi2,
          List.set_cons_succ]

theorem mem_map_recKey_upsertListRec (key x : String) (e : ProjectRecord)
    (ps : List ProjectRecord)
    (h : x ∈ (upsertListRec key e ps).map recKey) :
    x ∈ ps.map recKey ∨ x = recKey e := by
  induction ps with
  | nil =>
    right
    rw [upsertListRec_nil] at h
    simpa using h
  | cons p rest ih =>
    by_cases hp : slugMatches key p = true
    · rw [upsertListRec_cons_pos key e p rest hp] at h
      rcases List.mem_map.mp h with ⟨q, hq, hqx⟩
      rcases List.mem_cons.mp hq with hq1 | hq2
      · right
        subst hq1
        exact hqx.symm
      · left
        simp only [List.map_cons, List.mem_cons]
        exact Or.inr (List.mem_map.mpr ⟨q, hq2, hqx⟩)
    · rw [upsertListRec_cons_neg key e p rest hp] at h
      rcases List.mem_map.mp h with ⟨q, hq, hqx⟩
      rcases List.mem_cons.mp hq with hq1 | hq2
      · left
        subst hq1
        exact List.mem_map.mpr ⟨q, List.mem_cons_self _ _, hqx⟩
      · rcases ih (List.mem_map.mpr ⟨q, hq2, hqx⟩) with h1 | h2
        · left
          simp only [List.map_cons, List.mem_cons]
          exact Or.inr h1
        · right
          exact h2

theorem nodup_map_recKey_upsertListRec (key : String) (e : ProjectRecord)
    (ps : List ProjectRecord) (he : recKey e = key)
    (h : (ps.map recKey).Nodup) :
    ((upsertListRec key e ps).map recKey).Nodup := by
  induction ps with
  | nil =>
    rw [upsertListRec_nil]
    simp
  | cons p rest ih =>
    simp only [List.map_cons, List.nodup_cons] at h
    by_cases hp : slugMatches key p = true
    · rw [upsertListRec_cons_pos key e p rest hp]
      simp only [List.map_cons, List.nodup_cons]
      have hpk : recKey p = key := by
        simpa [slugMatches] using hp
      refine ⟨?_, h.2⟩
      rw [he, ← hpk]
      exact h.1
    · rw [upsertListRec_cons_neg key e p rest hp]
      simp only [List.map_cons, List.nodup_cons]
      refine ⟨?_, ih h.2⟩
      intro hmem
      rcases mem_map_recKey_upsertListRec key (recKey p) e rest hmem with h1 | h2
      · exact h.1 h1
      · rw [he] at h2
        exact hp (by simp [slugMatches, h2])

theorem contains_iff_mem (l : List String) (x : String) :
    l.contains x = true ↔ x ∈ l :=
  List.elem_iff

theorem recKey_syncEntry (slug html : String) :
    recKey (syncEntry slug html) = jsLower slug := rfl

theorem recKey_mkEntry (slug : String) (meta : Meta) :
    recKey (mkEntry slug meta) = jsLower slug := rfl

theorem filter_idem {α : Type} (p : α → Bool) (l : List α) :
    (l.filter p).filter p = l.filter p := by
  induction l with
  | nil => rfl
  | cons a t ih => cases h : p a <;> simp [List.filter_cons, h, ih]

theorem syncLoop_nil (read : String → String) (ps : List ProjectRecord)
    (keys added : List String) :
    syncLoop read [] ps keys added = (ps, keys, added) := rfl

theorem syncLoop_cons_mem (read : String → String) (f : String) (rest : List String)
    (ps : List ProjectRecord) (keys added : List String)
    (h : keys.contains (fileKey f) = true) :
    syncLoop read (f :: rest) ps keys added = syncLoop read rest ps keys added := by
  conv_lhs => unfold syncLoop
  rw [if_pos h]

theorem syncLoop_cons_new (read : String → String) (f : String) (rest : List String)
    (ps : List ProjectRecord) (keys added : List String)
    (h : ¬ keys.contains (fileKey f) = true) :
    syncLoop read (f :: rest) ps keys added =
      syncLoop read rest (ps ++ [syncEntry (stripHtmlSfx f) (read f)])
        (keys ++ [fileKey f]) (added ++ [stripHtmlSfx f]) := by
  conv_lhs => unfold syncLoop
  rw [if_neg h]

theorem syncLoop_keys_eq (read : String → String) (files : List String) :
    ∀ (ps : List ProjectRecord) (keys added : List String),
      keys = ps.map recKey →
      (syncLoop read files ps keys added).2.1 =
        (syncLoop read files ps keys added).1.map recKey := by
  induction files with
  | nil =>
    intro ps keys added h
    simpa [syncLoop_nil] using h
  | cons f rest ih =>
    intro ps keys added h
    by_cases hc : keys.contains (fileKey f) = true
    · rw [syncLoop_cons_mem read f rest ps keys added hc]
      exact ih ps keys added h
    · rw [syncLoop_cons_new read f rest ps keys added hc]
      refine ih _ _ _ ?_
      rw [h, List.map_append]
      simp [recKey_syncEntry, fileKey]

theorem syncLoop_keys_mono (read : String → String) (files : List String) :
    ∀ (ps : List ProjectRecord) (keys added : List String) (k : String),
      k ∈ keys → k ∈ (syncLoop read files ps keys added).2.1 := by
  induction files with
  | nil =>
    intro ps keys added k hk
    simpa [syncLoop_nil] using hk
  | cons f rest ih =>
    intro ps keys added k hk
    by_cases hc : keys.contains (fileKey f) = true
    · rw [syncLoop_cons_mem read f rest ps keys added hc]
      exact ih ps keys added k hk
    · rw [syncLoop_cons_new read f rest ps keys added hc]
      exact ih _ _ _ k (List.mem_append_left _ hk)

theorem syncLoop_cover (read : String → String) (files : List String) :
    ∀ (ps : List ProjectRecord) (keys added : List String) (f : String),
      f ∈ files → fileKey f ∈ (syncLoop read files ps keys added).2.1 := by
  induction files with
  | nil =>
    intro ps keys added f hf
    simp at hf
  | cons g rest ih =>
    intro ps keys added f hf
    by_cases hc : keys.contains (fileKey g) = true
    · rw [syncLoop_cons_mem read g rest ps keys added hc]
      rcases List.mem_cons.mp hf with hf1 | hf2
      · subst hf1
        exact syncLoop_keys_mono read rest ps keys added _
          ((contains_iff_mem keys (fileKey f)).mp hc)
      · exact ih ps keys added f hf2
    · rw [syncLoop_cons_new read g rest ps keys added hc]
      rcases List.mem_cons.mp hf with hf1 | hf2
      · subst hf1
        exact syncLoop_keys_mono read rest _ _ _ _
          (List.mem_append_right _ (List.mem_singleton.mpr rfl))
      · exact ih _ _ _ f hf2

theorem syncLoop_all_present (read : String → String) (files : List String) :
    ∀ (ps : List ProjectRecord) (keys added : List String),
      (∀ f ∈ files, fileKey f ∈ keys) →
      syncLoop read files ps keys added = (ps, keys, added) := by
  induction files with
  | nil =>
    intro ps keys added _
    rfl
  | cons f rest ih =>
    intro ps keys added h
    have hc : keys.contains (fileKey f) = true :=
      (contains_iff_mem keys (fileKey f)).mpr (h f (List.mem_cons_self f rest))
    rw [syncLoop_cons_mem read f rest ps keys added hc]
    exact ih ps keys added (fun g hg => h g (List.mem_cons_of_mem f hg))

theorem syncLoop_keys_nodup (read : String → String) (files : List String) :
    ∀ (ps : List ProjectRecord) (keys added : List String),
      keys.Nodup → (syncLoop read files ps keys added).2.1.Nodup := by
  induction files with
  | nil =>
    intro ps keys added h
    simpa [syncLoop_nil] using h
  | cons f rest ih =>
    intro ps keys added h
    by_cases hc : keys.contains (fileKey f) = true
    · rw [syncLoop_cons_mem read f rest ps keys added hc]
      exact ih ps keys added h
    · rw [syncLoop_cons_new read f rest ps keys added hc]
      refine ih _ _ _ ?_
      have hnm : fileKey f ∉ keys := fun hmem =>
        hc ((contains_iff_mem keys (fileKey f)).mpr hmem)
      simp [List.nodup_append, h, hnm]

theorem reconcileIndex_records_eq (files : List String) (read : String → String)
    (ps : List ProjectRecord) :
    (reconcileIndex files read ps).records =
      (syncLoop read (htmlFilter files) ps (ps.map recKey) []).1.filter
        (fun p => ((htmlFilter files).map fileKey).contains (recKey p)) := rfl

theorem reconcileIndex_added_eq (files : List String) (read : String → String)
    (ps : List ProjectRecord) :
    (reconcileIndex files read ps).added =
      (syncLoop read (htmlFilter files) ps (ps.map recKey) []).2.2 := rfl

theorem reconcileIndex_removed_eq (files : List String) (read : String → String)
    (ps : List ProjectRecord) :
    (reconcileIndex files read ps).removedCount =
      (syncLoop read (htmlFilter files) ps (ps.map recKey) []).1.length -
        (reconcileIndex files read ps).records.length := rfl

theorem reconcile_records_nodup (files : List String) (read : String → String)
    (ps : List ProjectRecord) (h : (ps.map recKey).Nodup) :
    ((reconcileIndex files read ps).records.map recKey).Nodup := by
  have hkeys := syncLoop_keys_eq read (htmlFilter files) ps (ps.map recKey) [] rfl
  have hnd := syncLoop_keys_nodup read (htmlFilter files) ps (ps.map recKey) [] h
  rw [hkeys] at hnd
  rw [reconcileIndex_records_eq]
  exact List.Nodup.sublist (List.Sublist.map recKey (List.filter_sublist _)) hnd

theorem reconcile_cover (files : List String) (read : String → String)
    (ps : List ProjectRecord) :
    ∀ f ∈ htmlFilter files,
      fileKey f ∈ (reconcileIndex files read ps).records.map recKey := by
  intro f hf
  have h1 : fileKey f ∈ (syncLoop read (htmlFilter files) ps (ps.map recKey) []).2.1 :=
    syncLoop_cover read (htmlFilter files) ps (ps.map recKey) [] f hf
  rw [syncLoop_keys_eq read (htmlFilter files) ps (ps.map recKey) [] rfl] at h1
  rcases List.mem_map.mp h1 with ⟨p, hp, hpk⟩
  refine List.mem_map.mpr ⟨p, ?_, hpk⟩
  rw [reconcileIndex_records_eq]
  refine List.mem_filter.mpr ⟨hp, ?_⟩
  refine (contains_iff_mem _ (recKey p)).mpr ?_
  rw [hpk]
  exact List.mem_map.mpr ⟨f, hf, rfl⟩

theorem reconcile_idem_core (files : List String) (read : String → String)
    (ps : List ProjectRecord) :
    (reconcileIndex files read (reconcileIndex files read ps).records).added = []
    ∧ (reconcileIndex files read (reconcileIndex files read ps).records).removedCount = 0 := by
  have hstop := syncLoop_all_present read (htmlFilter files)
    (reconcileIndex files read ps).records
    ((reconcileIndex files read ps).records.map recKey) []
    (fun f hf => reconcile_cover files read ps f hf)
  have hrec : (reconcileIndex files read (reconcileIndex files read ps).records).records
      = (reconcileIndex files read ps).records := by
    rw [reconcileIndex_records_eq files read (reconcileIndex files read ps).records, hstop]
    conv_lhs => rw [reconcileIndex_records_eq files read ps]
    conv_rhs => rw [reconcileIndex_records_eq files read ps]
    exact filter_idem _ _
  constructor
  · rw [reconcileIndex_added_eq files read (reconcileIndex files read ps).records, hstop]
  · rw [reconcileIndex_removed_eq files read (reconcileIndex files read ps).records,
      hstop, hrec]
    exact Nat.sub_self _

theorem saveV1_invalid (raw : String) (html : Option String) (meta : Meta)
    (disk : IndexFile) (h : sanitizeSlug raw = "") :
    saveV1 raw html meta disk = ⟨.badRequest "Missing slug", disk, none⟩ := by
  unfold saveV1
  rw [if_pos h]

theorem saveV1_ok (raw : String) (html : Option String) (meta : Meta)
    (disk : IndexFile) (h : ¬ sanitizeSlug raw = "") :
    saveV1 raw html meta disk =
      ⟨.okSave ("projects/" ++ sanitizeSlug raw ++ ".html"),
        .jsonArray (upsertList (jsLower (sanitizeSlug raw))
          (mkEntry (sanitizeSlug raw) meta) (loadProjects disk)),
        some (sanitizeSlug raw ++ ".html", jsOrOpt html "")⟩ := by
  unfold saveV1
  rw [if_neg h]

theorem saveV2_invalid (raw : String) (html : Option String) (meta : Meta)
    (disk : IndexFile) (h : sanitizeSlug raw = "") :
    saveV2 raw html meta disk = ⟨.badRequest "Missing slug", disk, none⟩ := by
  unfold saveV2
  rw [if_pos h]

theorem saveV2_ok (raw : String) (html : Option String) (meta : Meta)
    (disk : IndexFile) (h : ¬ sanitizeSlug raw = "") :
    saveV2 raw html meta disk =
      ⟨.okSave ("TemplateEdit/projects/" ++ sanitizeSlug raw ++ ".html"),
        .jsonArray (upsertList (jsLower (sanitizeSlug raw))
          (mkEntry (sanitizeSlug raw) meta) (loadProjects disk)),
        some (sanitizeSlug raw ++ ".html", jsOrOpt html "")⟩ := by
  unfold saveV2
  rw [if_neg h]

/-! ### Claim theorems -/

/-- C5: for every `meta.tags` / `meta.dataCategory` input: a list is stored
unchanged, a truthy (non-empty) scalar is wrapped into a one-element list,
and an absent, empty or otherwise falsy value yields the empty list; the
stored record fields are exactly these normalizations. -/
theorem c5_scalar_or_list (l : List JVal) (s : String) (n : Int) (slug : String)
    (meta : Meta) :
    scalarOrList (some (.varr l)) = l
    ∧ (s ≠ "" → scalarOrList (some (.vstr s)) = [.vstr s])
    ∧ (n ≠ 0 → scalarOrList (some (.vnum n)) = [.vnum n])
    ∧ scalarOrList (some (.vbool true)) = [.vbool true]
    ∧ scalarOrList (some (.vstr "")) = []
    ∧ scalarOrList (some (.vnum 0)) = []
    ∧ scalarOrList (some (.vbool false)) = []
    ∧ scalarOrList (some .vnull) = []
    ∧ scalarOrList none = []
    ∧ (mkEntry slug meta).tags = scalarOrList meta.tags
    ∧ (mkEntry slug meta).dataCategory = scalarOrList meta.dataCategory := by
  refine ⟨rfl, ?_, ?_, rfl, rfl, rfl, rfl, rfl, rfl, rfl, rfl⟩
  · intro hs
    show (if (JVal.vstr s).truthy then [JVal.vstr s] else []) = [JVal.vstr s]
    rw [if_pos (by simp [JVal.truthy, hs])]
  · intro hn
    show (if (JVal.vnum n).truthy then [JVal.vnum n] else []) = [JVal.vnum n]
    rw [if_pos (by simp [JVal.truthy, hn])]

theorem c5_witness :
    scalarOrList (some (.vstr "x")) = [.vstr "x"]
    ∧ scalarOrList (some (.vnum 2)) = [.vnum 2]
    ∧ scalarOrList (some (.varr [JVal.vstr "a"])) = [JVal.vstr "a"] :=
  ⟨(c5_scalar_or_list [JVal.vstr "a"] "x" 2 "p" metaNone).2.1 (by decide),
   (c5_scalar_or_list [JVal.vstr "a"] "x" 2 "p" metaNone).2.2.1 (by decide),
   (c5_scalar_or_list [JVal.vstr "a"] "x" 2 "p" metaNone).1⟩

/-- C6: slug sanitization replaces every character outside `[a-zA-Z0-9-]`
with `-`, is idempotent, and a successful upsert stores the record under
the sanitized slug. -/
theorem c6_sanitize_upsert (s raw : String) (html : Option String) (meta : Meta)
    (disk : IndexFile) :
    (sanitizeSlug s).data = s.data.map sanitizeChar
    ∧ sanitizeSlug (sanitizeSlug s) = sanitizeSlug s
    ∧ (sanitizeSlug raw ≠ "" →
        (saveV1 raw html meta disk).disk =
          .jsonArray (upsertList (jsLower (sanitizeSlug raw))
            (mkEntry (sanitizeSlug raw) meta) (loadProjects disk))
        ∧ mkEntry (sanitizeSlug raw) meta ∈
            loadProjects ((saveV1 raw html meta disk).disk)) := by
  refine ⟨rfl, sanitizeSlug_idem s, fun h => ?_⟩
  rw [saveV1_ok raw html meta disk h]
  refine ⟨rfl, ?_⟩
  show mkEntry (sanitizeSlug raw) meta ∈
    upsertList (jsLower (sanitizeSlug raw)) (mkEntry (sanitizeSlug raw) meta)
      (loadProjects disk)
  rw [upsertList_eq_rec]
  exact self_mem_upsertListRec _ _ _

theorem c6_witness :
    mkEntry (sanitizeSlug "My Project!") metaNone ∈
      loadProjects ((saveV1 "My Project!" none metaNone (.jsonArray [])).disk) :=
  ((c6_sanitize_upsert "x" "My Project!" none metaNone (.jsonArray [])).2.2
    (by decide)).2

/-- C7: the save endpoint answers the client error `Missing slug` exactly
when the sanitized slug is empty, and in that case neither the HTML file
nor the index file is written (both server variants). -/
theorem c7_invalid_input (raw : String) (html : Option String) (meta : Meta)
    (disk : IndexFile) :
    ((saveV1 raw html meta disk).response = .badRequest "Missing slug" ↔
      sanitizeSlug raw = "")
    ∧ (sanitizeSlug raw = "" →
        (saveV1 raw html meta disk).disk = disk
        ∧ (saveV1 raw html meta disk).wroteHtml = none)
    ∧ ((saveV2 raw html meta disk).response = .badRequest "Missing slug" ↔
        sanitizeSlug raw = "")
    ∧ (sanitizeSlug raw = "" →
        (saveV2 raw html meta disk).disk = disk
        ∧ (saveV2 raw html meta disk).wroteHtml = none) := by
  by_cases h : sanitizeSlug raw = ""
  · rw [saveV1_invalid raw html meta disk h, saveV2_invalid raw html meta disk h]
    exact ⟨⟨fun _ => h, fun _ => rfl⟩, fun _ => ⟨rfl, rfl⟩,
      ⟨fun _ => h, fun _ => rfl⟩, fun _ => ⟨rfl, rfl⟩⟩
  · rw [saveV1_ok raw html meta disk h, saveV2_ok raw html meta disk h]
    exact ⟨⟨fun hbad => absurd hbad (by simp), fun hh => absurd hh h⟩,
      fun hh => absurd hh h,
      ⟨fun hbad => absurd hbad (by simp), fun hh => absurd hh h⟩,
      fun hh => absurd hh h⟩

theorem c7_witness :
    (saveV1 "" none metaNone .missing).disk = .missing
    ∧ (saveV1 "" none metaNone .missing).wroteHtml = none :=
  (c7_invalid_input "" none metaNone .missing).2.1 (by decide)

/-- C8: a missing index file and an unparseable index file are both
silently treated as the empty index: the save succeeds and the rewritten
index holds exactly the new record. -/
theorem c8_tolerant (raw : String) (html : Option String) (meta : Meta)
    (h : sanitizeSlug raw ≠ "") :
    ((saveV1 raw html meta .missing).response =
        .okSave ("projects/" ++ sanitizeSlug raw ++ ".html")
      ∧ (saveV1 raw html meta .missing).disk =
        .jsonArray [mkEntry (sanitizeSlug raw) meta])
    ∧ ((saveV1 raw html meta .invalidJson).response =
        .okSave ("projects/" ++ sanitizeSlug raw ++ ".html")
      ∧ (saveV1 raw html meta .invalidJson).disk =
        .jsonArray [mkEntry (sanitizeSlug raw) meta]) := by
  rw [saveV1_ok raw html meta .missing h, saveV1_ok raw html meta .invalidJson h]
  exact ⟨⟨rfl, rfl⟩, ⟨rfl, rfl⟩⟩

theorem c8_witness :
    (saveV1 "proj" none metaNone .invalidJson).disk =
      .jsonArray [mkEntry (sanitizeSlug "proj") metaNone] :=
  ((c8_tolerant "proj" none metaNone (by decide)).2).2

/-- C10: a persisted index holding valid JSON that is not an array is
treated exactly like a parse failure by both the save endpoint and the
sync endpoint: the index is taken to be empty and the non-array content
is replaced by a JSON array on the next write. -/
theorem c10_nonarray (raw : String) (html : Option String) (meta : Meta)
    (files : List String) (read : String → String) (h : sanitizeSlug raw ≠ "") :
    (saveV1 raw html meta .jsonNonArray).disk =
      .jsonArray [mkEntry (sanitizeSlug raw) meta]
    ∧ (saveV2 raw html meta .jsonNonArray).disk =
      .jsonArray [mkEntry (sanitizeSlug raw) meta]
    ∧ reconcileIndex files read (loadProjects .jsonNonArray) =
      reconcileIndex files read []
    ∧ diskAfterV2 .sync ⟨.jsonNonArray, files, read⟩ =
      .jsonArray (reconcileIndex files read []).records := by
  refine ⟨?_, ?_, rfl, rfl⟩
  · rw [saveV1_ok raw html meta .jsonNonArray h]
    rfl
  · rw [saveV2_ok raw html meta .jsonNonArray h]
    rfl

theorem c10_witness :
    (saveV1 "proj" none metaNone .jsonNonArray).disk =
      .jsonArray [mkEntry (sanitizeSlug "proj") metaNone] :=
  (c10_nonarray "proj" none metaNone [] (fun _ => "") (by decide)).1

theorem saveV1_disk_records (raw : String) (html : Option String) (meta : Meta)
    (ps : List ProjectRecord) (h : sanitizeSlug raw ≠ "") :
    loadProjects ((saveV1 raw html meta (.jsonArray ps)).disk) =
      upsertListRec (jsLower (sanitizeSlug raw)) (mkEntry (sanitizeSlug raw) meta) ps := by
  rw [saveV1_ok raw html meta (.jsonArray ps) h]
  show upsertList (jsLower (sanitizeSlug raw)) (mkEntry (sanitizeSlug raw) meta) ps =
    upsertListRec (jsLower (sanitizeSlug raw)) (mkEntry (sanitizeSlug raw) meta) ps
  exact upsertList_eq_rec _ _ _

/-- C3: running the sync endpoint twice with the same directory contents
and no intervening change to the index file reports nothing added and
nothing removed on the second run. -/
theorem c3_reconcile_idempotent (files : List String) (read : String → String)
    (disk : IndexFile) :
    (reconcileIndex files read
      (loadProjects (.jsonArray (reconcileIndex files read (loadProjects disk)).records))).added
      = []
    ∧ (reconcileIndex files read
      (loadProjects (.jsonArray
        (reconcileIndex files read (loadProjects disk)).records))).removedCount = 0 :=
  reconcile_idem_core files read (loadProjects disk)

/-- C2 (amended): neither a save nor a sync introduces a duplicate slug:
if the loaded index has no two records with case-insensitively equal
slugs, the written index has none either.  (The unamended claim, over
pre-states that already hold duplicates, fails: see the counterexample.) -/
theorem c2_no_new_duplicates (raw : String) (html : Option String) (meta : Meta)
    (disk : IndexFile) (files : List String) (read : String → String)
    (h : ((loadProjects disk).map recKey).Nodup) :
    ((loadProjects ((saveV1 raw html meta disk).disk)).map recKey).Nodup
    ∧ ((reconcileIndex files read (loadProjects disk)).records.map recKey).Nodup := by
  constructor
  · by_cases hs : sanitizeSlug raw = ""
    · rw [saveV1_invalid raw html meta disk hs]
      exact h
    · rw [saveV1_ok raw html meta disk hs]
      show ((upsertList (jsLower (sanitizeSlug raw)) (mkEntry (sanitizeSlug raw) meta)
        (loadProjects disk)).map recKey).Nodup
      rw [upsertList_eq_rec]
      exact nodup_map_recKey_upsertListRec _ _ _ (recKey_mkEntry _ _) h
  · exact reconcile_records_nodup files read (loadProjects disk) h

theorem c2_witness :
    ((loadProjects ((saveV1 "a" none metaNone (.jsonArray [])).disk)).map recKey).Nodup
    ∧ ((reconcileIndex ["a.html"] (fun _ => "")
        (loadProjects (.jsonArray []))).records.map recKey).Nodup :=
  c2_no_new_duplicates "a" none metaNone (.jsonArray []) ["a.html"] (fun _ => "")
    (by decide)

/-- C2 counterexample: started from a persisted index that already holds
two records with the same slug, both a save (of an unrelated slug) and a
sync leave the duplicate pair in the written index, so the claimed
invariant does not hold over every pre-state. -/
theorem c2_counterexample :
    ¬ ((loadProjects ((saveV1 "b" none metaNone
        (.jsonArray [dupRecord, dupRecord])).disk)).map recKey).Nodup
    ∧ ¬ ((reconcileIndex ["a.html"] (fun _ => "")
        [dupRecord, dupRecord]).records.map recKey).Nodup :=
  ⟨by decide, by decide⟩

/-- C1 (amended): if the pre-state index holds at most one record for the
slug, upserting twice with the same slug (any case variants) leaves
exactly one record for it, holding the second call's normalized data, at
the list position the first call's record occupied.  (Over pre-states
with duplicate slugs the unamended claim fails: see the counterexample.) -/
theorem c1_upsert_twice (ps : List ProjectRecord) (raw1 raw2 : String)
    (html1 html2 : Option String) (m1 m2 : Meta)
    (hcase : jsLower raw1 = jsLower raw2)
    (hne : sanitizeSlug raw1 ≠ "")
    (hcount : countKey (jsLower (sanitizeSlug raw1)) ps ≤ 1) :
    ∃ i,
      (loadProjects ((saveV1 raw1 html1 m1 (.jsonArray ps)).disk))[i]? =
        some (mkEntry (sanitizeSlug raw1) m1)
      ∧ loadProjects ((saveV1 raw2 html2 m2 (.jsonArray
          (loadProjects ((saveV1 raw1 html1 m1 (.jsonArray ps)).disk)))).disk) =
        (loadProjects ((saveV1 raw1 html1 m1 (.jsonArray ps)).disk)).set i
          (mkEntry (sanitizeSlug raw2) m2)
      ∧ countKey (jsLower (sanitizeSlug raw1))
          (loadProjects ((saveV1 raw2 html2 m2 (.jsonArray
            (loadProjects ((saveV1 raw1 html1 m1 (.jsonArray ps)).disk)))).disk)) = 1 := by
  have hne2 : sanitizeSlug raw2 ≠ "" := by
    intro h2
    have hlen : raw1.data.length = raw2.data.length := by
      have hd := congrArg (fun s : String => s.data.length) hcase
      simpa [jsLower] using hd
    rw [sanitizeSlug_eq_empty_iff] at h2
    apply hne
    rw [sanitizeSlug_eq_empty_iff]
    rw [h2] at hlen
    have hz : raw1.data.length = 0 := hlen
    exact List.length_eq_zero.mp hz
  have hkey : jsLower (sanitizeSlug raw2) = jsLower (sanitizeSlug raw1) := by
    rw [jsLower_sanitizeSlug, jsLower_sanitizeSlug, hcase]
  rw [saveV1_disk_records raw1 html1 m1 ps hne,
    saveV1_disk_records raw2 html2 m2 _ hne2, hkey]
  have he1 : slugMatches (jsLower (sanitizeSlug raw1)) (mkEntry (sanitizeSlug raw1) m1)
      = true := by
    simp [slugMatches, recKey_mkEntry]
  have he2 : slugMatches (jsLower (sanitizeSlug raw1)) (mkEntry (sanitizeSlug raw2) m2)
      = true := by
    simp only [slugMatches, recKey_mkEntry]
    simpa using hkey
  obtain ⟨i, hi1, hi2⟩ := upsertListRec_twice (jsLower (sanitizeSlug raw1))
    (mkEntry (sanitizeSlug raw1) m1) (mkEntry (sanitizeSlug raw2) m2) he1 ps hcount
  have hc1 : countKey (jsLower (sanitizeSlug raw1))
      (upsertListRec (jsLower (sanitizeSlug raw1)) (mkEntry (sanitizeSlug raw1) m1) ps)
      = 1 :=
    countKey_upsertListRec _ _ ps he1 hcount
  exact ⟨i, hi1, hi2,
    countKey_upsertListRec _ _ _ he2 (by omega)⟩

theorem c1_witness :
    jsLower "My Proj" = jsLower "MY PROJ"
    ∧ sanitizeSlug "My Proj" ≠ ""
    ∧ countKey (jsLower (sanitizeSlug "My Proj")) [] ≤ 1
    ∧ ∃ i,
        (loadProjects ((saveV1 "My Proj" none metaNone (.jsonArray [])).disk))[i]? =
          some (mkEntry (sanitizeSlug "My Proj") metaNone)
        ∧ loadProjects ((saveV1 "MY PROJ" none metaNone (.jsonArray
            (loadProjects ((saveV1 "My Proj" none metaNone
              (.jsonArray [])).disk)))).disk) =
          (loadProjects ((saveV1 "My Proj" none metaNone (.jsonArray [])).disk)).set i
            (mkEntry (sanitizeSlug "MY PROJ") metaNone)
        ∧ countKey (jsLower (sanitizeSlug "My Proj"))
            (loadProjects ((saveV1 "MY PROJ" none metaNone (.jsonArray
              (loadProjects ((saveV1 "My Proj" none metaNone
                (.jsonArray [])).disk)))).disk)) = 1 :=
  ⟨by decide, by decide, by decide,
    c1_upsert_twice [] "My Proj" "MY PROJ" none none metaNone metaNone
      (by decide) (by decide) (by decide)⟩

theorem jsOrStr_flip (x d : String) : jsOrStr x d = if x ≠ "" then x else d := by
  unfold jsOrStr
  by_cases h : x = "" <;> simp [h]

/-- C4 (amended): for every scraped HTML string, the entry title follows
the chain title-tag text (owner suffix stripped, trimmed), then first h1
text (trimmed), then humanized slug — where each fallback fires whenever
the previous stage produced the *empty string* (not merely when its regex
failed to match); the entry image is the first img src, trimmed, or the
empty default.  (The unamended per-match fallback chain fails: see the
counterexample.) -/
theorem c4_scrape_amended (html : String) (slug : String) :
    (syncEntry slug html).title = amendedTitleC4 html slug
    ∧ (syncEntry slug html).image = claimedImageC4 html := by
  constructor
  · show jsOrStr (parseMetaFromHtml html).title (humanizeSlug slug) = amendedTitleC4 html slug
    rw [jsOrStr_flip]
    unfold parseMetaFromHtml amendedTitleC4
    cases ht : findTitleTag html with
    | none =>
      cases hh : findH1Tag html with
      | none => simp [string_mk_eq_empty_iff]
      | some cap2 =>
        simp only [List.isEmpty_nil, if_true]
        by_cases hemp2 : jsTrim cap2 = []
        · simp [hemp2, string_mk_eq_empty_iff]
        · simp [hemp2, string_mk_eq_empty_iff]
    | some cap =>
      by_cases hemp : (jsTrim (stripOwnerSfx cap)).isEmpty = true
      · rw [List.isEmpty_iff] at hemp
        cases hh : findH1Tag html with
        | none => simp [hemp, string_mk_eq_empty_iff]
        | some cap2 =>
          by_cases hemp2 : jsTrim cap2 = []
          · simp [hemp, hemp2, string_mk_eq_empty_iff]
          · simp [hemp, hemp2, string_mk_eq_empty_iff]
      · rw [Bool.not_eq_true, List.isEmpty_eq_false] at hemp
        simp [hemp, string_mk_eq_empty_iff]
  · show jsOrStr (parseMetaFromHtml html).image "" = claimedImageC4 html
    unfold parseMetaFromHtml claimedImageC4
    cases hi : findImgSrc html with
    | none => rfl
    | some cap =>
      by_cases hemp : jsTrim cap = []
      · simp [jsOrStr, hemp, string_mk_eq_empty_iff]
      · simp [jsOrStr, hemp, string_mk_eq_empty_iff]

/-- C4 counterexample: on `<title> | Sharva Paralkar</title><h1>Hello</h1>`
the title tag *does* match, and the claim therefore prescribes its
stripped text (the empty string), but the code falls through to the h1
text `Hello` because the stripped title is empty. -/
theorem c4_counterexample :
    (syncEntry "my-page" htmlCex).title = "Hello"
    ∧ claimedTitleC4 htmlCex "my-page" = ""
    ∧ (syncEntry "my-page" htmlCex).title ≠ claimedTitleC4 htmlCex "my-page" :=
  ⟨by decide, by decide, by decide⟩

/-- C9 (amended): the two server variants agree on upload (identically)
and on save (same written state, same error behavior, stored path
differing only in the directory-layout prefix).  They do *not* implement
the same operations: only the sibling variant has the sync route — see
the counterexample. -/
theorem c9_variants_amended (st : ServerState) (orig : Option String)
    (slug html : Option String) (meta : Meta) :
    handleV1 (.upload orig) st = handleV2 (.upload orig) st
    ∧ diskAfterV1 (.upload orig) st = diskAfterV2 (.upload orig) st
    ∧ diskAfterV1 (.save slug html meta) st = diskAfterV2 (.save slug html meta) st
    ∧ (sanitizeSlug (jsOrOpt slug "") = "" →
        handleV1 (.save slug html meta) st = .badRequest "Missing slug"
        ∧ handleV2 (.save slug html meta) st = .badRequest "Missing slug")
    ∧ (sanitizeSlug (jsOrOpt slug "") ≠ "" →
        handleV1 (.save slug html meta) st =
          .okSave ("projects/" ++ sanitizeSlug (jsOrOpt slug "") ++ ".html")
        ∧ handleV2 (.save slug html meta) st =
          .okSave ("TemplateEdit/projects/" ++ sanitizeSlug (jsOrOpt slug "") ++ ".html")) := by
  refine ⟨rfl, rfl, ?_, ?_, ?_⟩
  · show (saveV1 (jsOrOpt slug "") html meta st.disk).disk =
      (saveV2 (jsOrOpt slug "") html meta st.disk).disk
    by_cases h : sanitizeSlug (jsOrOpt slug "") = ""
    · rw [saveV1_invalid _ html meta st.disk h, saveV2_invalid _ html meta st.disk h]
    · rw [saveV1_ok _ html meta st.disk h, saveV2_ok _ html meta st.disk h]
  · intro h
    constructor
    · show (saveV1 (jsOrOpt slug "") html meta st.disk).response = _
      rw [saveV1_invalid _ html meta st.disk h]
    · show (saveV2 (jsOrOpt slug "") html meta st.disk).response = _
      rw [saveV2_invalid _ html meta st.disk h]
  · intro h
    constructor
    · show (saveV1 (jsOrOpt slug "") html meta st.disk).response = _
      rw [saveV1_ok _ html meta st.disk h]
    · show (saveV2 (jsOrOpt slug "") html meta st.disk).response = _
      rw [saveV2_ok _ html meta st.disk h]

theorem c9_witness :
    handleV1 (.save (some "p") none metaNone) stCex =
      .okSave ("projects/" ++ sanitizeSlug (jsOrOpt (some "p") "") ++ ".html")
    ∧ handleV2 (.save (some "p") none metaNone) stCex =
      .okSave ("TemplateEdit/projects/" ++ sanitizeSlug (jsOrOpt (some "p") "") ++ ".html") :=
  (c9_variants_amended stCex (some "x") (some "p") none metaNone).2.2.2.2 (by decide)

/-- C9 counterexample: on a sync request the first variant answers the
framework 404 and leaves the index file alone, while the sibling variant
reconciles and rewrites the index — the variants differ in behavior, not
only in path strings. -/
theorem c9_counterexample :
    handleV1 .sync stCex = .notFound
    ∧ isNotFound (handleV2 .sync stCex) = false
    ∧ handleV1 .sync stCex ≠ handleV2 .sync stCex
    ∧ (loadProjects (diskAfterV1 .sync stCex)).length = 0
    ∧ (loadProjects (diskAfterV2 .sync stCex)).length = 1
    ∧ loadProjects (diskAfterV1 .sync stCex) ≠ loadProjects (diskAfterV2 .sync stCex) := by
  refine ⟨rfl, by decide, ?_, by decide, by decide, ?_⟩
  · intro h
    exact absurd (congrArg isNotFound h) (by decide)
  · intro h
    exact absurd (congrArg List.length h) (by decide)

/-- C1 counterexample: if the pre-state index already holds two records
with slug `a`, upserting `a` twice leaves two records matching `a`, not
exactly one, so the claim fails over arbitrary index states. -/
theorem c1_counterexample :
    countKey (jsLower (sanitizeSlug "a"))
      (loadProjects ((saveV1 "a" none metaNone (.jsonArray
        (loadProjects ((saveV1 "a" none metaNone
          (.jsonArray [dupRecord, dupRecord])).disk)))).disk)) = 2
    ∧ ¬ countKey (jsLower (sanitizeSlug "a"))
        (loadProjects ((saveV1 "a" none metaNone (.jsonArray
          (loadProjects ((saveV1 "a" none metaNone
            (.jsonArray [dupRecord, dupRecord])).disk)))).disk)) = 1 :=
  ⟨by decide, by decide⟩

end PortfolioEditor
